import Mathlib

/-!
Shallow embedding of `src/loci.py`, a per-position sequencing-coverage tool.

Modelling conventions:
* Python strings are modelled as `List Char` (`Str`); a text file is a
  `List Str` of its lines, each line carrying its trailing newline character
  exactly as Python's file iteration yields it.
* Python's builtin `int()` is modelled by `pyInt` (ASCII whitespace padding,
  optional sign, decimal digits; numeric-literal underscores and non-ASCII
  digits are out of scope), and `str()` on integers by `pyStrInt`/`pyStrNat`.
* A Python exception aborting the run is modelled by `Option`/`none`; a
  function that cannot raise is total.
* The `reads` dict is modelled as an insertion-ordered association list
  (`Reads`), matching Python dict iteration order.
* The flat `loci` list of alternating position/coverage cells is modelled as
  a `List Locus` of the position/coverage pairs that `init_poscov` appends
  and `process`/`output_poscov` walk two cells at a time.
-/

namespace LociPy

/-- A Python string, modelled as its list of characters. -/
abbrev Str := List Char

/-- The ASCII whitespace characters that Python's `int()` strips. -/
def isPySpace (c : Char) : Bool :=
  c = ' ' || c = '\t' || c = '\n' || c = '\r' || c = '\x0b' || c = '\x0c'

/-- Model of Python `s.split(',')`: split on every comma, keeping empty
fields; always returns at least one field. -/
def splitOnComma : Str → List Str
  | [] => [[]]
  | c :: rest =>
    let r := splitOnComma rest
    if c = ',' then [] :: r
    else
      match r with
      | [] => [[c]]
      | f :: fs => (c :: f) :: fs

/-- Model of Python `s.rstrip("\n")`: drop all trailing newline characters. -/
def rstripNl (s : Str) : Str :=
  (s.reverse.dropWhile (fun c => c = '\n')).reverse

/-- Numeric value of a decimal digit character. -/
def digitVal (c : Char) : Nat := c.toNat - 48

/-- Value of a big-endian list of decimal digit characters. -/
def digitsVal (ds : Str) : Nat :=
  ds.foldl (fun a c => a * 10 + digitVal c) 0

/-- Digits-and-trailing-padding phase of `pyInt`: after the optional sign
there must be at least one decimal digit, followed only by whitespace. -/
def pyIntCore (neg : Bool) (t : Str) : Option Int :=
  let ds := t.takeWhile Char.isDigit
  let rest := t.dropWhile Char.isDigit
  if ds ≠ [] ∧ rest.all isPySpace then
    some (if neg then -(digitsVal ds : Int) else (digitsVal ds : Int))
  else none

/-- Model of Python `int(s)`: strip surrounding ASCII whitespace, accept an
optional single sign followed by one or more decimal digits; anything else
raises `ValueError` (here: `none`). -/
def pyInt (s : Str) : Option Int :=
  match s.dropWhile isPySpace with
  | [] => none
  | c :: r =>
    if c = '-' then pyIntCore true r
    else if c = '+' then pyIntCore false r
    else pyIntCore false (c :: r)

/-- One stored locus: the position cell and the coverage cell that
`init_poscov` appends to the flat `loci` list (`loci.py` lines 88-89). -/
structure Locus where
  position : Int
  coverage : Nat
  deriving DecidableEq, Repr

/-- The `reads` dict: insertion-ordered association list from the stripped
record text to its multiplicity. -/
abbrev Reads := List (Str × Nat)

/-- Multiplicity stored under `key`, `0` when absent (first match wins, as
in a dict where keys are unique). -/
def lookupCount : Reads → Str → Nat
  | [], _ => 0
  | (k, m) :: rest, key => if k = key then m else lookupCount rest key

/-- Model of Python `the_key in reads` (`loci.py` line 165). -/
def hasKey (reads : Reads) (key : Str) : Bool :=
  reads.any (fun kv => kv.1 = key)

/-- One body iteration of `init_reads` (`loci.py` lines 165-170): bump an
existing key's count, or append a fresh key with count 1 (Python dicts keep
insertion order, hence the append). -/
def bumpRead (reads : Reads) (key : Str) : Reads :=
  if hasKey reads key then
    reads.map (fun kv => if kv.1 = key then (kv.1, kv.2 + 1) else kv)
  else
    reads ++ [(key, 1)]

/-- `init_reads` (`loci.py` lines 155-170): skip the header line, then fold
every record (with trailing newlines stripped) into the dict. -/
def init_reads (lines : List Str) : Reads :=
  (lines.drop 1).foldl (fun reads line => bumpRead reads (rstripNl line)) []

/-- One body iteration of `init_poscov` (`loci.py` lines 88-89): parse the
first comma-field of the row as the position, pair it with coverage 0. -/
def parseLocusRow (line : Str) : Option Locus := do
  let f0 := match splitOnComma line with
    | f :: _ => f
    | [] => []
  let p ← pyInt f0
  pure ⟨p, 0⟩

/-- Row loop of `init_poscov`: first parse failure aborts the run. -/
def init_poscov_rows : List Str → Option (List Locus)
  | [] => some []
  | line :: rest => do
    let L ← parseLocusRow line
    let rest2 ← init_poscov_rows rest
    pure (L :: rest2)

/-- `init_poscov` (`loci.py` lines 84-89): skip the header line, then build
one `Locus` per data row, in order. -/
def init_poscov (lines : List Str) : Option (List Locus) :=
  init_poscov_rows (lines.drop 1)

/-- Decimal digit character for a digit value below 10 (model of how
Python's `str()` renders each digit). -/
def digitChar (d : Nat) : Char :=
  if d = 0 then '0' else if d = 1 then '1' else if d = 2 then '2'
  else if d = 3 then '3' else if d = 4 then '4' else if d = 5 then '5'
  else if d = 6 then '6' else if d = 7 then '7' else if d = 8 then '8'
  else '9'

/-- Fuel-based big-endian decimal rendering of a natural number. -/
def natToDigitsAux : Nat → Nat → Str
  | 0, _ => []
  | fuel + 1, n =>
    if n = 0 then []
    else natToDigitsAux fuel (n / 10) ++ [digitChar (n % 10)]

/-- Model of Python `str(n)` for a natural number. -/
def pyStrNat (n : Nat) : Str :=
  if n = 0 then ['0'] else natToDigitsAux (n + 1) n

/-- Model of Python `str(i)` for an integer. -/
def pyStrInt (i : Int) : Str :=
  if i < 0 then '-' :: pyStrNat i.natAbs else pyStrNat i.natAbs

/-- One output data row (`loci.py` lines 126-127):
`str(position) + ", " + str(coverage) + "\n"`. -/
def serializeRow (L : Locus) : Str :=
  pyStrInt L.position ++ ',' :: ' ' :: pyStrNat L.coverage ++ ['\n']

/-- The output header row (`loci.py` line 116). -/
def headerRow : Str :=
  ['p', 'o', 's', 'i', 't', 'i', 'o', 'n', ',', ' ',
   'c', 'o', 'v', 'e', 'r', 'a', 'g', 'e', '\n']

/-- `output_poscov` (`loci.py` lines 114-129): the header row followed by
one row per locus, in order. -/
def output_poscov (loci : List Locus) : List Str :=
  headerRow :: loci.map serializeRow

/-- Model of `int(fields[0])`, `int(fields[1])` on a split read key
(`loci.py` lines 212-215): needs at least two comma-fields, both parsing as
integers, and ignores any further fields; returns `(start, length)`. -/
def parseKey (k : Str) : Option (Int × Int) :=
  match splitOnComma k with
  | f0 :: f1 :: _ => do
    let s ← pyInt f0
    let l ← pyInt f1
    pure (s, l)
  | _ => none

/-- Inner loop of `process` (`loci.py` lines 210-221): walk the reads dict,
parse each key, and add its multiplicity to the coverage accumulator when
`start <= locus < start + length`; a parse failure aborts. -/
def readsLoop (the_locus : Int) (cov : Nat) : Reads → Option Nat
  | [] => some cov
  | (k, m) :: rest =>
    match parseKey k with
    | none => none
    | some (start, len) =>
      let e := start + len
      let cov2 := if the_locus ≥ start ∧ the_locus < e then cov + m else cov
      readsLoop the_locus cov2 rest

/-- `process` (`loci.py` lines 203-223) with its mutation frame made
explicit: the loci list is rebuilt with updated coverage cells, and the
reads dict — which the loop only reads — is returned alongside. -/
def processState (loci : List Locus) (reads : Reads) :
    Option (List Locus × Reads) :=
  match loci with
  | [] => some ([], reads)
  | L :: rest => do
    let c ← readsLoop L.position L.coverage reads
    let (rest2, reads2) ← processState rest reads
    pure (⟨L.position, c⟩ :: rest2, reads2)

/-- `process` viewed as the transformation of the loci list alone. -/
def process (loci : List Locus) (reads : Reads) : Option (List Locus) :=
  (processState loci reads).map Prod.fst

/-- `main`'s data pipeline (`loci.py` lines 235-253): load loci, load
reads, annotate, and only then produce the output lines; any `ParseError`
(modelled by `none`) aborts the run with no output. -/
def runPipeline (lociLines readLines : List Str) : Option (List Str) := do
  let loci ← init_poscov lociLines
  let reads := init_reads readLines
  let annotated ← process loci reads
  pure (output_poscov annotated)

/-- Specification-side containment: the key's parsed interval
`[start, start + length)` contains `p` (false when the key fails to parse). -/
def keyCovers (k : Str) (p : Int) : Bool :=
  match parseKey k with
  | some (s, l) => decide (s ≤ p ∧ p < s + l)
  | none => false

/-- Specification-side coverage: the sum of the multiplicities of the
stored read intervals that contain `p`. -/
def coverageSpec (p : Int) (reads : Reads) : Nat :=
  ((reads.filter (fun kv => keyCovers kv.1 p)).map (fun kv => kv.2)).sum

/-- Number of occurrences of `k` in a list of keys. -/
def occCount (keys : List Str) (k : Str) : Nat :=
  (keys.filter (fun x => x = k)).length

/-- Number of keys in a raw (non-deduplicated) key list that cover `p`. -/
def coveredCount (p : Int) (keys : List Str) : Nat :=
  (keys.filter (fun k => keyCovers k p)).length

/-- Sum of all stored multiplicities. -/
def multSum (reads : Reads) : Nat :=
  (reads.map (fun kv => kv.2)).sum

/-- The keys of the reads dict, in insertion order. -/
def keysOf (reads : Reads) : List Str :=
  reads.map (fun kv => kv.1)

/-- The second comma-field of a row (empty when there is none); used to
state what the serialized coverage column re-parses to. -/
def secondField (row : Str) : Str :=
  match splitOnComma row with
  | _ :: f :: _ => f
  | _ => []

/-! ### Demonstration data (the spec's worked scenario) used by witnesses -/

/-- The read record `100,60`. -/
def demoKey1 : Str := ['1', '0', '0', ',', '6', '0']

/-- The read record `140,20`. -/
def demoKey2 : Str := ['1', '4', '0', ',', '2', '0']

/-- A reads input file: header, `100,60` twice, `140,20` once. -/
def demoReadLines : List Str :=
  [['h', '\n'], demoKey1 ++ ['\n'], demoKey1 ++ ['\n'], demoKey2 ++ ['\n']]

/-- The deduplicated reads dict of `demoReadLines`. -/
def demoReads : Reads := [(demoKey1, 2), (demoKey2, 1)]

/-- Freshly loaded loci at positions 100, 150, 200. -/
def demoLoci : List Locus := [⟨100, 0⟩, ⟨150, 0⟩, ⟨200, 0⟩]

/-- A loci input file: header, rows 100, 150, 200. -/
def demoLociLines : List Str :=
  [['p', '\n'], ['1', '0', '0', '\n'], ['1', '5', '0', '\n'],
   ['2', '0', '0', '\n']]

/-- The spec's boundary-inclusivity read record `100,50`. -/
def demoBoundaryKey : Str := ['1', '0', '0', ',', '5', '0']

/-- A zero-length read record `100,0`. -/
def demoZeroKey : Str := ['1', '0', '0', ',', '0']

/-- `demoReads` in the opposite iteration order. -/
def demoReadsRev : Reads := [(demoKey2, 1), (demoKey1, 2)]

/-- `demoLoci` in the opposite order. -/
def demoLociRev : List Locus := [⟨200, 0⟩, ⟨150, 0⟩, ⟨100, 0⟩]

/-- A reads input file whose single record is not integer-parseable. -/
def badReadLines : List Str := [['h', '\n'], ['x', '\n']]

/-! ### Characterisation of the annotation loop -/

/-- `coverageSpec` unfolded one read at a time. -/
theorem coverageSpec_cons (p : Int) (k : Str) (m : Nat) (rest : Reads) :
    coverageSpec p ((k, m) :: rest)
      = (if keyCovers k p then m else 0) + coverageSpec p rest := by
  by_cases h : keyCovers k p <;>
    simp [coverageSpec, List.filter_cons, h]

/-- `coverageSpec` is additive over concatenation. -/
theorem coverageSpec_append (p : Int) (r₁ r₂ : Reads) :
    coverageSpec p (r₁ ++ r₂) = coverageSpec p r₁ + coverageSpec p r₂ := by
  simp [coverageSpec]

/-- `coverageSpec` only depends on the multiset of reads. -/
theorem coverageSpec_perm (p : Int) {r₁ r₂ : Reads} (h : r₁.Perm r₂) :
    coverageSpec p r₁ = coverageSpec p r₂ :=
  ((h.filter _).map _).sum_eq

/-- When every stored key parses, the inner loop of `process` returns the
accumulator plus the sum of the covering multiplicities. -/
theorem readsLoop_some (p : Int) (reads : Reads)
    (h : ∀ kv ∈ reads, (parseKey kv.1).isSome) (c : Nat) :
    readsLoop p c reads = some (c + coverageSpec p reads) := by
  induction reads generalizing c with
  | nil => simp [readsLoop, coverageSpec]
  | cons kv rest ih =>
    obtain ⟨k, m⟩ := kv
    obtain ⟨⟨s, l⟩, hsl⟩ :=
      Option.isSome_iff_exists.mp (h (k, m) (List.mem_cons_self _ _))
    have hrest : ∀ kv ∈ rest, (parseKey kv.1).isSome :=
      fun kv hkv => h kv (List.mem_cons_of_mem _ hkv)
    have hcov : keyCovers k p = decide (s ≤ p ∧ p < s + l) := by
      simp [keyCovers, hsl]
    rw [coverageSpec_cons]
    by_cases hb : s ≤ p ∧ p < s + l <;>
      simp [readsLoop, hsl, ih hrest, hcov, hb, ge_iff_le] <;> omega

/-- A stored key that fails to parse makes the inner loop abort. -/
theorem readsLoop_none (p : Int) (reads : Reads)
    (h : ∃ kv ∈ reads, parseKey kv.1 = none) (c : Nat) :
    readsLoop p c reads = none := by
  induction reads generalizing c with
  | nil => simp at h
  | cons kv rest ih =>
    obtain ⟨k, m⟩ := kv
    rcases h with ⟨kv', hmem, hbad⟩
    rcases List.mem_cons.mp hmem with hkv | hkv
    · subst hkv
      simp [readsLoop, hbad]
    · cases hpk : parseKey k with
      | none => simp [readsLoop, hpk]
      | some sl =>
        obtain ⟨s, l⟩ := sl
        simp only [readsLoop, hpk]
        exact ih ⟨kv', hkv, hbad⟩ _

/-- When every stored key parses, `processState` annotates every locus with
the sum of the covering multiplicities and leaves the reads dict unchanged. -/
theorem processState_some (loci : List Locus) (reads : Reads)
    (h : ∀ kv ∈ reads, (parseKey kv.1).isSome) :
    processState loci reads
      = some (loci.map
          (fun L => ⟨L.position, L.coverage + coverageSpec L.position reads⟩),
          reads) := by
  induction loci with
  | nil => simp [processState]
  | cons L rest ih =>
    simp [processState, readsLoop_some L.position reads h L.coverage, ih]

/-- When every stored key parses, `process` annotates every locus with the
sum of the covering multiplicities. -/
theorem process_some (loci : List Locus) (reads : Reads)
    (h : ∀ kv ∈ reads, (parseKey kv.1).isSome) :
    process loci reads
      = some (loci.map
          (fun L => ⟨L.position, L.coverage + coverageSpec L.position reads⟩)) := by
  simp [process, processState_some loci reads h]

/-- A stored key that fails to parse aborts `process` as soon as there is at
least one locus. -/
theorem process_none (loci : List Locus) (reads : Reads)
    (h : ∃ kv ∈ reads, parseKey kv.1 = none) (hne : loci ≠ []) :
    process loci reads = none := by
  cases loci with
  | nil => exact absurd rfl hne
  | cons L rest =>
    simp [process, processState, readsLoop_none L.position reads h L.coverage]

/-! ### Properties of the reads-dict construction -/

/-- `hasKey` on a cons cell. -/
theorem hasKey_cons (k₀ : Str) (m₀ : Nat) (rest : Reads) (key : Str) :
    hasKey ((k₀, m₀) :: rest) key = (decide (k₀ = key) || hasKey rest key) :=
  rfl

/-- `hasKey` is membership in `keysOf`. -/
theorem hasKey_iff_mem_keysOf (reads : Reads) (key : Str) :
    hasKey reads key = true ↔ key ∈ keysOf reads := by
  rw [hasKey, List.any_eq_true]
  constructor
  · rintro ⟨kv, hmem, hk⟩
    have hk' : kv.1 = key := by simpa using hk
    exact hk' ▸ List.mem_map_of_mem _ hmem
  · intro hmem
    obtain ⟨kv, hmem', hk⟩ := List.mem_map.mp hmem
    exact ⟨kv, hmem', by simpa using hk⟩

/-- Looking up an absent key yields 0. -/
theorem lookupCount_eq_zero (reads : Reads) (key : Str)
    (h : hasKey reads key = false) : lookupCount reads key = 0 := by
  induction reads with
  | nil => rfl
  | cons kv rest ih =>
    obtain ⟨k₀, m₀⟩ := kv
    rw [hasKey_cons] at h
    rcases Bool.or_eq_false_iff.mp h with ⟨h₁, h₂⟩
    rw [lookupCount, if_neg (by simpa using h₁)]
    exact ih h₂

/-- Lookup distributes over concatenation, first hit wins. -/
theorem lookupCount_append (r₁ r₂ : Reads) (k : Str) :
    lookupCount (r₁ ++ r₂) k
      = if hasKey r₁ k then lookupCount r₁ k else lookupCount r₂ k := by
  induction r₁ with
  | nil => simp [hasKey, lookupCount]
  | cons kv rest ih =>
    obtain ⟨k₀, m₀⟩ := kv
    by_cases hk : k₀ = k
    · subst hk
      simp [lookupCount, hasKey_cons]
    · rw [List.cons_append, lookupCount, if_neg hk, ih, lookupCount,
        if_neg hk, hasKey_cons]
      simp [hk]

/-- Incrementing the entries under `key` bumps the looked-up count of `key`
by one exactly when `key` is present. -/
theorem lookupCount_mapInc (reads : Reads) (key k : Str) :
    lookupCount
        (reads.map (fun kv => if kv.1 = key then (kv.1, kv.2 + 1) else kv)) k
      = lookupCount reads k
        + (if k = key ∧ hasKey reads k = true then 1 else 0) := by
  induction reads with
  | nil => simp [lookupCount, hasKey]
  | cons kv rest ih =>
    obtain ⟨k₀, m₀⟩ := kv
    simp only [List.map_cons]
    by_cases hkey : k₀ = key
    · rw [if_pos hkey]
      by_cases hk : k₀ = k
      · subst hk
        rw [lookupCount, if_pos rfl, lookupCount, if_pos rfl, hasKey_cons]
        simp [hkey]
      · rw [lookupCount, if_neg hk, lookupCount, if_neg hk, ih, hasKey_cons]
        simp [hk]
    · rw [if_neg hkey]
      by_cases hk : k₀ = k
      · subst hk
        rw [lookupCount, if_pos rfl, lookupCount, if_pos rfl]
        have hnk : ¬(k₀ = key ∧ hasKey ((k₀, m₀) :: rest) k₀ = true) :=
          fun hc => hkey hc.1
        rw [if_neg hnk]
        omega
      · rw [lookupCount, if_neg hk, lookupCount, if_neg hk, ih, hasKey_cons]
        simp [hk]

/-- One `init_reads` iteration adds exactly one occurrence of `key`. -/
theorem lookupCount_bumpRead (reads : Reads) (key k : Str) :
    lookupCount (bumpRead reads key) k
      = lookupCount reads k + (if k = key then 1 else 0) := by
  cases h : hasKey reads key with
  | true =>
    rw [bumpRead, if_pos h, lookupCount_mapInc]
    by_cases hk : k = key
    · subst hk
      rw [if_pos rfl, if_pos ⟨rfl, h⟩]
    · rw [if_neg hk, if_neg (fun hc => hk hc.1)]
  | false =>
    rw [bumpRead, if_neg (by simp [h]), lookupCount_append]
    by_cases hk : k = key
    · subst hk
      rw [if_neg (by simp [h]), lookupCount_eq_zero reads k h, if_pos rfl,
        lookupCount, if_pos rfl]
    · cases hh : hasKey reads k with
      | true =>
        rw [if_pos rfl, if_neg hk]
        omega
      | false =>
        rw [if_neg (by simp [hh]), lookupCount_eq_zero reads k hh, if_neg hk,
          lookupCount, if_neg (fun he => hk he.symm), lookupCount]

/-- `bumpRead` keeps every multiplicity at least 1. -/
theorem bumpRead_pos (reads : Reads) (key : Str)
    (h : ∀ kv ∈ reads, 1 ≤ kv.2) :
    ∀ kv ∈ bumpRead reads key, 1 ≤ kv.2 := by
  intro kv hkv
  by_cases hh : hasKey reads key
  · rw [bumpRead, if_pos hh] at hkv
    obtain ⟨kv', hmem, heq⟩ := List.mem_map.mp hkv
    by_cases hk : kv'.1 = key
    · rw [if_pos hk] at heq
      rw [← heq]
      have := h kv' hmem
      simp
    · rw [if_neg hk] at heq
      exact heq ▸ h kv' hmem
  · rw [bumpRead, if_neg hh] at hkv
    rcases List.mem_append.mp hkv with hmem | hmem
    · exact h kv hmem
    · simp at hmem
      simp [hmem]

/-- Incrementing an entry's multiplicity does not change the key list. -/
theorem keysOf_mapInc (reads : Reads) (key : Str) :
    keysOf (reads.map (fun kv => if kv.1 = key then (kv.1, kv.2 + 1) else kv))
      = keysOf reads := by
  induction reads with
  | nil => rfl
  | cons kv rest ih =>
    simp only [keysOf, List.map_cons] at ih ⊢
    by_cases hk : kv.1 = key
    · rw [if_pos hk, ih]
    · rw [if_neg hk, ih]

/-- `bumpRead` keeps the keys distinct. -/
theorem keysOf_nodup_bumpRead (reads : Reads) (key : Str)
    (h : (keysOf reads).Nodup) : (keysOf (bumpRead reads key)).Nodup := by
  by_cases hh : hasKey reads key
  · rw [bumpRead, if_pos hh, keysOf_mapInc]
    exact h
  · rw [bumpRead, if_neg hh]
    have hnot : key ∉ keysOf reads := by
      intro hmem
      rw [(hasKey_iff_mem_keysOf reads key).mpr hmem] at hh
      exact hh rfl
    have hkeys : keysOf (reads ++ [(key, 1)]) = keysOf reads ++ [key] := by
      simp [keysOf]
    rw [hkeys, List.nodup_append]
    refine ⟨h, List.nodup_singleton key, ?_⟩
    intro a hmem heq
    rw [List.mem_singleton] at heq
    exact hnot (heq ▸ hmem)

/-- If no entry carries `key`, the increment map is the identity. -/
theorem mapInc_eq_self (reads : Reads) (key : Str)
    (h : hasKey reads key = false) :
    reads.map (fun kv => if kv.1 = key then (kv.1, kv.2 + 1) else kv)
      = reads := by
  induction reads with
  | nil => rfl
  | cons kv rest ih =>
    obtain ⟨k₀, m₀⟩ := kv
    rw [hasKey_cons] at h
    rcases Bool.or_eq_false_iff.mp h with ⟨h₁, h₂⟩
    simp only [List.map_cons]
    rw [if_neg (by simpa using h₁), ih h₂]

/-- A present key occurs in the tail when it differs from the head key. -/
theorem hasKey_of_cons_ne (k₀ : Str) (m₀ : Nat) (rest : Reads) (key : Str)
    (hh : hasKey ((k₀, m₀) :: rest) key = true) (hk : k₀ ≠ key) :
    hasKey rest key = true := by
  rw [hasKey_cons] at hh
  rcases Bool.or_eq_true_iff.mp hh with h₁ | h₁
  · exact absurd (by simpa using h₁) hk
  · exact h₁

/-- With distinct keys, one `init_reads` iteration adds exactly 1 to the
total multiplicity. -/
theorem multSum_bumpRead (reads : Reads) (key : Str)
    (h : (keysOf reads).Nodup) :
    multSum (bumpRead reads key) = multSum reads + 1 := by
  by_cases hh : hasKey reads key
  · rw [bumpRead, if_pos hh]
    induction reads with
    | nil => simp [hasKey] at hh
    | cons kv rest ih =>
      obtain ⟨k₀, m₀⟩ := kv
      simp only [keysOf, List.map_cons, List.nodup_cons] at h
      by_cases hk : k₀ = key
      · subst hk
        have hrest : hasKey rest k₀ = false := by
          cases hr : hasKey rest k₀
          · rfl
          · exact absurd
              (by simpa [keysOf] using (hasKey_iff_mem_keysOf rest k₀).mp hr)
              h.1
        simp only [List.map_cons]
        rw [if_pos trivial, mapInc_eq_self rest k₀ hrest]
        simp [multSum]
        omega
      · have hrest : hasKey rest key = true :=
          hasKey_of_cons_ne k₀ m₀ rest key hh hk
        have hih := ih (by simpa [keysOf] using h.2) hrest
        simp only [List.map_cons]
        rw [if_neg hk]
        simp only [multSum, List.map_cons, List.sum_cons] at hih ⊢
        omega
  · rw [bumpRead, if_neg hh]
    simp [multSum]

/-- With distinct keys, one `init_reads` iteration adds exactly 1 to the
engine's coverage sum at `p` when the new record covers `p`, and 0
otherwise. -/
theorem coverageSpec_bumpRead (p : Int) (reads : Reads) (key : Str)
    (h : (keysOf reads).Nodup) :
    coverageSpec p (bumpRead reads key)
      = coverageSpec p reads + (if keyCovers key p then 1 else 0) := by
  by_cases hh : hasKey reads key
  · rw [bumpRead, if_pos hh]
    induction reads with
    | nil => simp [hasKey] at hh
    | cons kv rest ih =>
      obtain ⟨k₀, m₀⟩ := kv
      simp only [keysOf, List.map_cons, List.nodup_cons] at h
      by_cases hk : k₀ = key
      · subst hk
        have hrest : hasKey rest k₀ = false := by
          cases hr : hasKey rest k₀
          · rfl
          · exact absurd
              (by simpa [keysOf] using (hasKey_iff_mem_keysOf rest k₀).mp hr)
              h.1
        simp only [List.map_cons]
        rw [if_pos trivial, mapInc_eq_self rest k₀ hrest,
          coverageSpec_cons, coverageSpec_cons]
        by_cases hc : keyCovers k₀ p <;> simp [hc] <;> omega
      · have hrest : hasKey rest key = true :=
          hasKey_of_cons_ne k₀ m₀ rest key hh hk
        have hih := ih (by simpa [keysOf] using h.2) hrest
        simp only [List.map_cons]
        rw [if_neg hk, coverageSpec_cons, coverageSpec_cons, hih]
        omega
  · rw [bumpRead, if_neg hh, coverageSpec_append, coverageSpec_cons]
    simp [coverageSpec]

/-! ### Fold invariants of `init_reads` -/

/-- Lookup after the `init_reads` fold counts occurrences of the stripped
key among the processed records. -/
theorem init_fold_lookup (recs : List Str) (acc : Reads) (k : Str) :
    lookupCount
        (recs.foldl (fun reads line => bumpRead reads (rstripNl line)) acc) k
      = lookupCount acc k + occCount (recs.map rstripNl) k := by
  induction recs generalizing acc with
  | nil => simp [occCount]
  | cons r rest ih =>
    rw [List.foldl_cons, ih, lookupCount_bumpRead]
    by_cases hk : k = rstripNl r
    · rw [if_pos hk]
      simp [occCount, List.filter_cons, hk.symm]
      omega
    · rw [if_neg hk]
      have hne : ¬rstripNl r = k := fun he => hk he.symm
      simp [occCount, List.filter_cons, hne]

/-- The `init_reads` fold keeps every multiplicity at least 1. -/
theorem init_fold_pos (recs : List Str) (acc : Reads)
    (h : ∀ kv ∈ acc, 1 ≤ kv.2) :
    ∀ kv ∈ recs.foldl (fun reads line => bumpRead reads (rstripNl line)) acc,
      1 ≤ kv.2 := by
  induction recs generalizing acc with
  | nil => exact h
  | cons r rest ih =>
    rw [List.foldl_cons]
    exact ih _ (bumpRead_pos acc (rstripNl r) h)

/-- The `init_reads` fold keeps the keys distinct. -/
theorem init_fold_nodup (recs : List Str) (acc : Reads)
    (h : (keysOf acc).Nodup) :
    (keysOf
        (recs.foldl (fun reads line => bumpRead reads (rstripNl line)) acc)
      ).Nodup := by
  induction recs generalizing acc with
  | nil => exact h
  | cons r rest ih =>
    rw [List.foldl_cons]
    exact ih _ (keysOf_nodup_bumpRead acc (rstripNl r) h)

/-- The `init_reads` fold adds one unit of multiplicity per record. -/
theorem init_fold_multSum (recs : List Str) (acc : Reads)
    (h : (keysOf acc).Nodup) :
    multSum (recs.foldl (fun reads line => bumpRead reads (rstripNl line)) acc)
      = multSum acc + recs.length := by
  induction recs generalizing acc with
  | nil => simp
  | cons r rest ih =>
    rw [List.foldl_cons, ih _ (keysOf_nodup_bumpRead acc (rstripNl r) h),
      multSum_bumpRead acc (rstripNl r) h]
    simp
    omega

/-- The `init_reads` fold adds one unit of coverage at `p` per raw record
whose stripped key covers `p`. -/
theorem init_fold_cov (p : Int) (recs : List Str) (acc : Reads)
    (h : (keysOf acc).Nodup) :
    coverageSpec p
        (recs.foldl (fun reads line => bumpRead reads (rstripNl line)) acc)
      = coverageSpec p acc + coveredCount p (recs.map rstripNl) := by
  induction recs generalizing acc with
  | nil => simp [coveredCount]
  | cons r rest ih =>
    rw [List.foldl_cons, ih _ (keysOf_nodup_bumpRead acc (rstripNl r) h),
      coverageSpec_bumpRead p acc (rstripNl r) h]
    by_cases hc : keyCovers (rstripNl r) p
    · rw [if_pos hc]
      simp [coveredCount, List.filter_cons, hc]
      omega
    · rw [if_neg hc]
      simp [coveredCount, List.filter_cons, hc]

/-- A key with positive looked-up count is stored. -/
theorem lookupCount_pos_mem (reads : Reads) (k : Str)
    (h : 0 < lookupCount reads k) : ∃ m, (k, m) ∈ reads := by
  induction reads with
  | nil => simp [lookupCount] at h
  | cons kv rest ih =>
    obtain ⟨k₀, m₀⟩ := kv
    by_cases hk : k₀ = k
    · subst hk
      exact ⟨m₀, List.mem_cons_self _ _⟩
    · rw [lookupCount, if_neg hk] at h
      obtain ⟨m, hm⟩ := ih h
      exact ⟨m, List.mem_cons_of_mem _ hm⟩

/-- A member of a key list is counted at least once. -/
theorem occCount_pos_of_mem (keys : List Str) (k : Str) (h : k ∈ keys) :
    0 < occCount keys k := by
  induction keys with
  | nil => simp at h
  | cons x rest ih =>
    rcases List.mem_cons.mp h with he | he
    · simp [occCount, List.filter_cons, he.symm]
    · by_cases hx : x = k
      · simp [occCount, List.filter_cons, hx]
      · have := ih he
        simp [occCount, List.filter_cons, hx]
        simpa [occCount] using this

/-! ### Decimal printing and parsing round-trip -/

/-- A decimal digit character is not Python whitespace. -/
theorem isPySpace_eq_false_of_digit (c : Char) (h : c.isDigit = true) :
    isPySpace c = false := by
  cases hs : isPySpace c
  · rfl
  · exfalso
    simp [isPySpace] at hs
    rcases hs with ((((h1 | h1) | h1) | h1) | h1) | h1 <;> subst h1 <;>
      exact absurd h (by decide)

/-- A decimal digit character is not a comma or a sign. -/
theorem digit_ne_punct (c : Char) (h : c.isDigit = true) :
    c ≠ ',' ∧ c ≠ '-' ∧ c ≠ '+' := by
  refine ⟨?_, ?_, ?_⟩ <;> rintro rfl <;> exact absurd h (by decide)

/-- `digitChar` renders a digit value faithfully. -/
theorem digitChar_spec (d : Nat) (h : d < 10) :
    (digitChar d).isDigit = true ∧ digitVal (digitChar d) = d := by
  interval_cases d <;> exact ⟨by decide, by decide⟩

/-- Every character emitted by the fuel-based renderer is a digit. -/
theorem natToDigitsAux_digits (fuel : Nat) :
    ∀ n, ∀ c ∈ natToDigitsAux fuel n, c.isDigit = true := by
  induction fuel with
  | zero =>
    intro n c hc
    simp [natToDigitsAux] at hc
  | succ fuel ih =>
    intro n c hc
    rw [natToDigitsAux] at hc
    by_cases hn : n = 0
    · rw [if_pos hn] at hc
      simp at hc
    · rw [if_neg hn] at hc
      rcases List.mem_append.mp hc with hm | hm
      · exact ih _ _ hm
      · rw [List.mem_singleton] at hm
        subst hm
        exact (digitChar_spec _ (Nat.mod_lt _ (by norm_num))).1

/-- Value of a digit string extended by one digit. -/
theorem digitsVal_snoc (l : Str) (c : Char) :
    digitsVal (l ++ [c]) = digitsVal l * 10 + digitVal c := by
  simp [digitsVal, List.foldl_append]

/-- The fuel-based renderer is read back to the number it rendered. -/
theorem natToDigitsAux_val (fuel : Nat) :
    ∀ n, n ≤ fuel → digitsVal (natToDigitsAux fuel n) = n := by
  induction fuel with
  | zero =>
    intro n hn
    interval_cases n
    simp [natToDigitsAux, digitsVal]
  | succ fuel ih =>
    intro n hn
    by_cases hz : n = 0
    · subst hz
      simp [natToDigitsAux, digitsVal]
    · rw [natToDigitsAux, if_neg hz, digitsVal_snoc,
        ih (n / 10) (by omega),
        (digitChar_spec (n % 10) (Nat.mod_lt _ (by norm_num))).2]
      omega

/-- Every character of `pyStrNat` is a digit. -/
theorem pyStrNat_all_digit (n : Nat) :
    ∀ c ∈ pyStrNat n, c.isDigit = true := by
  intro c hc
  rw [pyStrNat] at hc
  by_cases hn : n = 0
  · rw [if_pos hn] at hc
    rw [List.mem_singleton] at hc
    subst hc
    decide
  · rw [if_neg hn] at hc
    exact natToDigitsAux_digits _ _ _ hc

/-- `pyStrNat` never renders the empty string. -/
theorem pyStrNat_ne_nil (n : Nat) : pyStrNat n ≠ [] := by
  rw [pyStrNat]
  by_cases hn : n = 0
  · rw [if_pos hn]
    simp
  · rw [if_neg hn, natToDigitsAux, if_neg hn]
    simp

/-- `pyStrNat` round-trips through `digitsVal`. -/
theorem digitsVal_pyStrNat (n : Nat) : digitsVal (pyStrNat n) = n := by
  rw [pyStrNat]
  by_cases hn : n = 0
  · rw [if_pos hn, hn]
    decide
  · rw [if_neg hn]
    exact natToDigitsAux_val (n + 1) n (by omega)

/-- `takeWhile` passes over an all-true front segment. -/
theorem takeWhile_append_all (p : Char → Bool) (l₁ l₂ : Str)
    (h : ∀ c ∈ l₁, p c = true) :
    (l₁ ++ l₂).takeWhile p = l₁ ++ l₂.takeWhile p := by
  induction l₁ with
  | nil => simp
  | cons c cs ih =>
    rw [List.cons_append, List.takeWhile_cons,
      if_pos (h c (List.mem_cons_self _ _)),
      ih (fun x hx => h x (List.mem_cons_of_mem _ hx)), List.cons_append]

/-- `dropWhile` consumes an all-true front segment. -/
theorem dropWhile_append_all (p : Char → Bool) (l₁ l₂ : Str)
    (h : ∀ c ∈ l₁, p c = true) :
    (l₁ ++ l₂).dropWhile p = l₂.dropWhile p := by
  induction l₁ with
  | nil => simp
  | cons c cs ih =>
    rw [List.cons_append, List.dropWhile_cons,
      if_pos (h c (List.mem_cons_self _ _)),
      ih (fun x hx => h x (List.mem_cons_of_mem _ hx))]

/-- `takeWhile` of an all-false list is empty. -/
theorem takeWhile_eq_nil (p : Char → Bool) (l : Str)
    (h : ∀ c ∈ l, p c = false) : l.takeWhile p = [] := by
  cases l with
  | nil => rfl
  | cons c cs =>
    rw [List.takeWhile_cons,
      if_neg (by simp [h c (List.mem_cons_self _ _)])]

/-- `dropWhile` of an all-false list is the list. -/
theorem dropWhile_eq_self (p : Char → Bool) (l : Str)
    (h : ∀ c ∈ l, p c = false) : l.dropWhile p = l := by
  cases l with
  | nil => rfl
  | cons c cs =>
    rw [List.dropWhile_cons,
      if_neg (by simp [h c (List.mem_cons_self _ _)])]

/-- `pyIntCore` on a non-empty digit string followed by whitespace. -/
theorem pyIntCore_eval (neg : Bool) (ds post : Str)
    (hds : ∀ c ∈ ds, c.isDigit = true) (hne : ds ≠ [])
    (hpost : ∀ c ∈ post, isPySpace c = true) :
    pyIntCore neg (ds ++ post)
      = some (if neg then -(digitsVal ds : Int) else (digitsVal ds : Int)) := by
  have hpostd : ∀ c ∈ post, c.isDigit = false := by
    intro c hc
    cases hd : c.isDigit
    · rfl
    · exfalso
      have hsp := isPySpace_eq_false_of_digit c hd
      rw [hpost c hc] at hsp
      exact absurd hsp (by decide)
  have ht : (ds ++ post).takeWhile Char.isDigit = ds := by
    rw [takeWhile_append_all _ _ _ hds, takeWhile_eq_nil _ post hpostd,
      List.append_nil]
  have hd : (ds ++ post).dropWhile Char.isDigit = post := by
    rw [dropWhile_append_all _ _ _ hds, dropWhile_eq_self _ post hpostd]
  simp only [pyIntCore, ht, hd]
  rw [if_pos ⟨hne, List.all_eq_true.mpr hpost⟩]

/-- Python `int()` reads back Python `str()` of any integer, with arbitrary
whitespace padding around it. -/
theorem pyInt_pad (pre post : Str) (hpre : ∀ c ∈ pre, isPySpace c = true)
    (hpost : ∀ c ∈ post, isPySpace c = true) (i : Int) :
    pyInt (pre ++ pyStrInt i ++ post) = some i := by
  rcases lt_or_le i 0 with hneg | hpos
  · have hs : pyStrInt i = '-' :: pyStrNat i.natAbs := by
      rw [pyStrInt, if_pos hneg]
    have hdrop : (pre ++ pyStrInt i ++ post).dropWhile isPySpace
        = '-' :: (pyStrNat i.natAbs ++ post) := by
      rw [List.append_assoc, dropWhile_append_all _ _ _ hpre, hs,
        List.cons_append, List.dropWhile_cons, if_neg (by decide)]
    simp only [pyInt, hdrop]
    rw [if_pos trivial,
      pyIntCore_eval true _ post (pyStrNat_all_digit _) (pyStrNat_ne_nil _)
        hpost,
      digitsVal_pyStrNat]
    simp only [if_pos rfl]
    rw [show ((i.natAbs : Nat) : Int) = -i from by omega, neg_neg]
    rw [if_pos trivial]
  · have hs : pyStrInt i = pyStrNat i.natAbs := by
      rw [pyStrInt, if_neg (not_lt.mpr hpos)]
    cases hds : pyStrNat i.natAbs with
    | nil => exact absurd hds (pyStrNat_ne_nil _)
    | cons d tl =>
      have hdig : d.isDigit = true :=
        pyStrNat_all_digit _ d (hds ▸ List.mem_cons_self _ _)
      have hdrop : (pre ++ pyStrInt i ++ post).dropWhile isPySpace
          = d :: (tl ++ post) := by
        rw [List.append_assoc, dropWhile_append_all _ _ _ hpre, hs, hds,
          List.cons_append, List.dropWhile_cons,
          if_neg (by simp [isPySpace_eq_false_of_digit d hdig])]
      simp only [pyInt, hdrop]
      rw [if_neg (digit_ne_punct d hdig).2.1,
        if_neg (digit_ne_punct d hdig).2.2]
      have hre : d :: (tl ++ post) = (d :: tl) ++ post := rfl
      rw [hre, ← hds,
        pyIntCore_eval false _ post (pyStrNat_all_digit _)
          (pyStrNat_ne_nil _) hpost,
        digitsVal_pyStrNat]
      simp only [if_neg (by simp : ¬(false = true))]
      congr 1
      omega

/-- Python `int()` reads back Python `str()` of any integer. -/
theorem pyInt_pyStrInt (i : Int) : pyInt (pyStrInt i) = some i := by
  have h := pyInt_pad [] [] (by simp) (by simp) i
  simpa using h

/-- `pyStrInt` agrees with `pyStrNat` on naturals. -/
theorem pyStrInt_ofNat (n : Nat) : pyStrInt (n : Int) = pyStrNat n := by
  rw [pyStrInt, if_neg (by omega), Int.natAbs_ofNat]

/-- No character of `pyStrInt` is a comma. -/
theorem pyStrInt_no_comma (i : Int) : ∀ c ∈ pyStrInt i, c ≠ ',' := by
  intro c hc
  rw [pyStrInt] at hc
  by_cases hneg : i < 0
  · rw [if_pos hneg] at hc
    rcases List.mem_cons.mp hc with he | he
    · subst he
      decide
    · exact (digit_ne_punct c (pyStrNat_all_digit _ c he)).1
  · rw [if_neg hneg] at hc
    exact (digit_ne_punct c (pyStrNat_all_digit _ c hc)).1

/-! ### Splitting serialized rows -/

/-- A comma-free string is a single field. -/
theorem splitOnComma_no_comma (l : Str) (h : ∀ c ∈ l, c ≠ ',') :
    splitOnComma l = [l] := by
  induction l with
  | nil => rfl
  | cons c cs ih =>
    have hr := ih (fun x hx => h x (List.mem_cons_of_mem _ hx))
    simp only [splitOnComma, hr, if_neg (h c (List.mem_cons_self _ _))]

/-- Splitting at the first comma after a comma-free front segment. -/
theorem splitOnComma_append (a b : Str) (h : ∀ c ∈ a, c ≠ ',') :
    splitOnComma (a ++ ',' :: b) = a :: splitOnComma b := by
  induction a with
  | nil =>
    simp only [List.nil_append, splitOnComma]
    exact if_pos trivial
  | cons c cs ih =>
    have hr := ih (fun x hx => h x (List.mem_cons_of_mem _ hx))
    simp only [List.cons_append, splitOnComma, List.append_eq, hr,
      if_neg (h c (List.mem_cons_self _ _))]

/-- The two fields of a serialized output row. -/
theorem splitOnComma_serializeRow (L : Locus) :
    splitOnComma (serializeRow L)
      = [pyStrInt L.position, ' ' :: (pyStrNat L.coverage ++ ['\n'])] := by
  rw [serializeRow]
  simp only [List.cons_append, List.append_assoc]
  have h2 : ∀ c ∈ ' ' :: (pyStrNat L.coverage ++ ['\n']), c ≠ ',' := by
    intro c hc
    rcases List.mem_cons.mp hc with he | he
    · subst he
      decide
    · rcases List.mem_append.mp he with hm | hm
      · exact (digit_ne_punct c (pyStrNat_all_digit _ c hm)).1
      · rw [List.mem_singleton] at hm
        subst hm
        decide
  rw [splitOnComma_append _ _ (pyStrInt_no_comma L.position),
    splitOnComma_no_comma _ h2]

/-- Re-parsing a serialized row as a loci row recovers the position, with
coverage re-initialized to zero. -/
theorem parseLocusRow_serializeRow (L : Locus) :
    parseLocusRow (serializeRow L) = some ⟨L.position, 0⟩ := by
  simp only [parseLocusRow, splitOnComma_serializeRow, pyInt_pyStrInt]
  rfl

/-- The second field of a serialized row re-parses to the coverage. -/
theorem pyInt_secondField_serializeRow (L : Locus) :
    pyInt (secondField (serializeRow L)) = some (L.coverage : Int) := by
  have hpad := pyInt_pad [' '] ['\n'] (by decide) (by decide)
    (L.coverage : Int)
  rw [pyStrInt_ofNat] at hpad
  simp only [secondField, splitOnComma_serializeRow]
  simpa using hpad

/-! ### Loci loading and the serialization round-trip -/

/-- Successful loci loading yields one locus per data row. -/
theorem init_poscov_rows_length (rows : List Str) (loci : List Locus)
    (h : init_poscov_rows rows = some loci) : loci.length = rows.length := by
  induction rows generalizing loci with
  | nil =>
    rw [init_poscov_rows] at h
    cases h
    rfl
  | cons row rest ih =>
    rw [init_poscov_rows] at h
    cases hrow : parseLocusRow row with
    | none => rw [hrow] at h; cases h
    | some L =>
      rw [hrow] at h
      cases hrest : init_poscov_rows rest with
      | none => rw [hrest] at h; cases h
      | some rest2 =>
        rw [hrest] at h
        cases h
        simp [ih rest2 hrest]

/-- A row that fails to parse aborts loci loading. -/
theorem init_poscov_rows_none (rows : List Str)
    (h : ∃ row ∈ rows, parseLocusRow row = none) :
    init_poscov_rows rows = none := by
  induction rows with
  | nil => simp at h
  | cons row rest ih =>
    obtain ⟨r, hmem, hbad⟩ := h
    rcases List.mem_cons.mp hmem with he | he
    · subst he
      simp [init_poscov_rows, hbad]
    · cases hrow : parseLocusRow row with
      | none => simp [init_poscov_rows, hrow]
      | some L => simp [init_poscov_rows, hrow, ih ⟨r, he, hbad⟩]

/-- Successful loci loading sends the i-th data row to the i-th locus:
the order of the input rows is preserved exactly, duplicates in place. -/
theorem init_poscov_rows_get (rows : List Str) (loci : List Locus)
    (h : init_poscov_rows rows = some loci) :
    ∀ i (hi : i < loci.length) (hr : i < rows.length),
      parseLocusRow (rows.get ⟨i, hr⟩) = some (loci.get ⟨i, hi⟩) := by
  induction rows generalizing loci with
  | nil =>
    rw [init_poscov_rows] at h
    cases h
    intro i hi hr
    simp at hi
  | cons row rest ih =>
    rw [init_poscov_rows] at h
    cases hrow : parseLocusRow row with
    | none => rw [hrow] at h; cases h
    | some L =>
      rw [hrow] at h
      cases hrest : init_poscov_rows rest with
      | none => rw [hrest] at h; cases h
      | some rest2 =>
        rw [hrest] at h
        cases h
        intro i hi hr
        cases i with
        | zero => exact hrow
        | succ n =>
          exact ih rest2 hrest n (Nat.lt_of_succ_lt_succ hi)
            (Nat.lt_of_succ_lt_succ hr)

/-- Loci loading over serialized rows recovers every position, with
coverage re-initialized to zero. -/
theorem init_poscov_rows_serialized (loci : List Locus) :
    init_poscov_rows (loci.map serializeRow)
      = some (loci.map (fun L => ⟨L.position, 0⟩)) := by
  induction loci with
  | nil => simp [init_poscov_rows]
  | cons L rest ih =>
    simp [init_poscov_rows, parseLocusRow_serializeRow, ih]

/-- A reads dict that is not fully parseable contains a failing key. -/
theorem not_allParse_exists (reads : Reads)
    (h : ¬ ∀ kv ∈ reads, (parseKey kv.1).isSome) :
    ∃ kv ∈ reads, parseKey kv.1 = none := by
  by_contra hno
  push_neg at hno
  exact h (fun kv hkv => Option.ne_none_iff_isSome.mp (hno kv hkv))

/-! ### The claims -/

/-- C1: after annotation by `process` of freshly loaded loci (coverage 0)
against a reads dict whose keys all parse, every locus's final coverage is
the sum, over all stored read intervals containing its position, of that
interval's multiplicity; and a position contained in no stored interval
has that sum equal to 0. -/
theorem claim_C1_coverage_is_interval_sum (loci : List Locus) (reads : Reads)
    (hp : ∀ kv ∈ reads, (parseKey kv.1).isSome)
    (h0 : ∀ L ∈ loci, L.coverage = 0) :
    process loci reads
      = some (loci.map (fun L => ⟨L.position, coverageSpec L.position reads⟩))
    ∧ ∀ p : Int,
        (∀ kv ∈ reads, ∀ s l : Int, parseKey kv.1 = some (s, l) →
          ¬(s ≤ p ∧ p < s + l)) →
        coverageSpec p reads = 0 := by
  constructor
  · rw [process_some loci reads hp]
    congr 1
    apply List.map_congr_left
    intro L hL
    rw [h0 L hL]
    rw [Nat.zero_add]
  · intro p hnone
    have hfil : reads.filter (fun kv => keyCovers kv.1 p) = [] := by
      rw [List.filter_eq_nil_iff]
      intro kv hkv
      cases hpk : parseKey kv.1 with
      | none => simp [keyCovers, hpk]
      | some sl =>
        obtain ⟨s, l⟩ := sl
        have hb := hnone kv hkv s l hpk
        simp [keyCovers, hpk]
        omega
    rw [coverageSpec, hfil]
    rfl

/-- C2: `init_reads` strips trailing newlines and maps each distinct
stripped key to its exact occurrence count; every stored multiplicity is
at least 1; and the engine's coverage sum over the deduplicated dict
equals the count over the raw, non-deduplicated records, so a key
appearing N times contributes N. -/
theorem claim_C2_dedup_multiplicities (lines : List Str) :
    (∀ k : Str, lookupCount (init_reads lines) k
        = occCount ((lines.drop 1).map rstripNl) k)
    ∧ (∀ kv ∈ init_reads lines, 1 ≤ kv.2)
    ∧ (∀ p : Int, coverageSpec p (init_reads lines)
        = coveredCount p ((lines.drop 1).map rstripNl)) := by
  refine ⟨?_, ?_, ?_⟩
  · intro k
    have h := init_fold_lookup (lines.drop 1) [] k
    simpa [init_reads, lookupCount] using h
  · exact init_fold_pos (lines.drop 1) [] (by simp)
  · intro p
    have h := init_fold_cov p (lines.drop 1) [] (by simp [keysOf])
    simpa [init_reads, coverageSpec] using h

/-- C3: the membership test of `process` is start-inclusive and
end-exclusive: a single read with parsed start `s` and length `l`
contributes its multiplicity to a locus at `p` exactly when
`s ≤ p < s + l`. -/
theorem claim_C3_half_open_membership (p s l : Int) (m c : Nat) (k : Str)
    (hk : parseKey k = some (s, l)) :
    process [⟨p, c⟩] [(k, m)]
      = some [⟨p, if s ≤ p ∧ p < s + l then c + m else c⟩] := by
  simp [process, processState, readsLoop, hk, ge_iff_le]

/-- C4: successful loci loading yields exactly one locus per post-header
input row, with the i-th data row parsed to exactly the i-th locus (order
and duplicate positions preserved in place), and serialization emits
exactly one data row per locus, in that same order. -/
theorem claim_C4_row_cardinality_order (lines : List Str) (loci : List Locus)
    (h : init_poscov lines = some loci) :
    loci.length = (lines.drop 1).length
    ∧ (∀ i (hi : i < loci.length) (hr : i < (lines.drop 1).length),
        parseLocusRow ((lines.drop 1).get ⟨i, hr⟩)
          = some (loci.get ⟨i, hi⟩))
    ∧ (output_poscov loci).length = 1 + loci.length
    ∧ (output_poscov loci).drop 1 = loci.map serializeRow := by
  refine ⟨init_poscov_rows_length _ _ h, init_poscov_rows_get _ _ h, ?_, ?_⟩
  · simp [output_poscov]
    omega
  · simp [output_poscov]

/-- C5 counterexample: a reads record that cannot be parsed, together with
an empty loci table, still yields output — contrary to the claim that any
unparseable read key aborts the run. With no loci, the annotation loop body
never executes, so the key is never parsed. -/
theorem claim_C5_counterexample :
    (∃ r ∈ badReadLines.drop 1, parseKey (rstripNl r) = none)
    ∧ (runPipeline [['h', '\n']] badReadLines).isSome = true := by
  decide

/-- C5 (amended): an unparseable loci row always aborts the run with no
output; an unparseable read key aborts the run with no output provided at
least one loci data row exists. -/
theorem claim_C5_parse_error_aborts (lociLines readLines : List Str)
    (h : (∃ row ∈ lociLines.drop 1, parseLocusRow row = none)
       ∨ (lociLines.drop 1 ≠ []
          ∧ ∃ r ∈ readLines.drop 1, parseKey (rstripNl r) = none)) :
    runPipeline lociLines readLines = none := by
  rcases h with h | ⟨hne, r, hmem, hbad⟩
  · have hpc : init_poscov lociLines = none := init_poscov_rows_none _ h
    simp [runPipeline, hpc]
  · cases hpc : init_poscov lociLines with
    | none => simp [runPipeline, hpc]
    | some loci =>
      have hlen := init_poscov_rows_length _ _ hpc
      have hloci : loci ≠ [] := by
        intro he
        rw [he] at hlen
        exact hne (List.length_eq_zero.mp hlen.symm)
      have hocc : 0 < occCount ((readLines.drop 1).map rstripNl)
          (rstripNl r) :=
        occCount_pos_of_mem _ _ (List.mem_map_of_mem _ hmem)
      have hlk : 0 < lookupCount (init_reads readLines) (rstripNl r) := by
        simp only [init_reads]
        rw [init_fold_lookup]
        simpa [lookupCount] using hocc
      obtain ⟨m, hm⟩ := lookupCount_pos_mem _ _ hlk
      have hproc := process_none loci (init_reads readLines)
        ⟨(rstripNl r, m), hm, hbad⟩ hloci
      simp [runPipeline, hpc, hproc]

/-- C6 counterexample: serializing a locus with coverage 2 and re-parsing
the text as a loci input does not recover the coverage value — the loci
parse reads only the position field and re-initializes coverage to 0. -/
theorem claim_C6_counterexample :
    init_poscov (output_poscov [⟨100, 2⟩]) ≠ some [⟨100, 2⟩] := by
  decide

/-- C6 (amended): re-parsing serialized output as a loci input always
succeeds and recovers every position in order, but re-initializes every
coverage to 0; the original coverage values are recoverable by
integer-parsing the second comma-field of each serialized data row. -/
theorem claim_C6_serialization_roundtrip (loci : List Locus) :
    init_poscov (output_poscov loci)
      = some (loci.map (fun L => ⟨L.position, 0⟩))
    ∧ ((output_poscov loci).drop 1).map (fun row => pyInt (secondField row))
      = loci.map (fun L => some (L.coverage : Int)) := by
  constructor
  · simp [init_poscov, output_poscov, init_poscov_rows_serialized]
  · simp [output_poscov, pyInt_secondField_serializeRow]

/-- C7: the outcome of `process` does not depend on the iteration order:
permuting the reads dict leaves the result unchanged, and permuting the
loci permutes the annotated result accordingly (each locus still receiving
the same coverage). -/
theorem claim_C7_order_independence (loci₁ loci₂ : List Locus)
    (reads₁ reads₂ : Reads) (hr : reads₁.Perm reads₂)
    (hl : loci₁.Perm loci₂) :
    process loci₁ reads₁ = process loci₁ reads₂
    ∧ ∀ res₁ res₂, process loci₁ reads₁ = some res₁ →
        process loci₂ reads₁ = some res₂ → res₁.Perm res₂ := by
  constructor
  · by_cases hall : ∀ kv ∈ reads₁, (parseKey kv.1).isSome
    · have hall₂ : ∀ kv ∈ reads₂, (parseKey kv.1).isSome :=
        fun kv hkv => hall kv (hr.mem_iff.mpr hkv)
      rw [process_some _ _ hall, process_some _ _ hall₂]
      have hcov : ∀ p : Int, coverageSpec p reads₁ = coverageSpec p reads₂ :=
        fun p => coverageSpec_perm p hr
      simp [hcov]
    · have hex := not_allParse_exists _ hall
      have hex₂ : ∃ kv ∈ reads₂, parseKey kv.1 = none := by
        obtain ⟨kv, hm, hb⟩ := hex
        exact ⟨kv, hr.mem_iff.mp hm, hb⟩
      cases loci₁ with
      | nil => simp [process, processState]
      | cons L rest =>
        rw [process_none _ _ hex (by simp), process_none _ _ hex₂ (by simp)]
  · intro res₁ res₂ h₁ h₂
    by_cases hall : ∀ kv ∈ reads₁, (parseKey kv.1).isSome
    · rw [process_some _ _ hall] at h₁ h₂
      exact (Option.some.inj h₁) ▸ (Option.some.inj h₂) ▸ hl.map _
    · cases hloci : loci₁ with
      | nil =>
        have hl₂ : loci₂ = [] := List.perm_nil.mp (hloci ▸ hl).symm
        rw [hloci] at h₁
        rw [hl₂] at h₂
        simp [process, processState] at h₁ h₂
        rw [h₁, h₂]
      | cons L rest =>
        have hex := not_allParse_exists _ hall
        rw [hloci, process_none _ _ hex (by simp)] at h₁
        cases h₁

/-- C8: `process` only writes the coverage cells: positions are unchanged
(in place and order), and the reads dict comes out of the annotation loop
exactly as it went in. -/
theorem claim_C8_frame (loci : List Locus) (reads : Reads)
    (res : List Locus) (reads2 : Reads)
    (h : processState loci reads = some (res, reads2)) :
    res.map Locus.position = loci.map Locus.position ∧ reads2 = reads := by
  induction loci generalizing res reads2 with
  | nil =>
    rw [processState] at h
    cases h
    exact ⟨rfl, rfl⟩
  | cons L rest ih =>
    rw [processState] at h
    cases hc : readsLoop L.position L.coverage reads with
    | none => simp [hc] at h
    | some c =>
      cases hps : processState rest reads with
      | none => simp [hc, hps] at h
      | some pr =>
        obtain ⟨rest2, reads3⟩ := pr
        simp [hc, hps] at h
        obtain ⟨hres, hreads⟩ := h
        obtain ⟨ih1, ih2⟩ := ih rest2 reads3 hps
        rw [← hres, ← hreads]
        constructor
        · simp [ih1]
        · exact ih2

/-- C9: `init_reads` accepts every post-header record without error — the
stored multiplicities total exactly the record count — and a stored key
that is not parseable only fails later, in `process`, as soon as at least
one locus exists. -/
theorem claim_C9_reads_load_total (lines : List Str) :
    multSum (init_reads lines) = (lines.drop 1).length
    ∧ ∀ (k : Str) (m : Nat) (loci : List Locus),
        (k, m) ∈ init_reads lines → parseKey k = none → loci ≠ [] →
        process loci (init_reads lines) = none := by
  constructor
  · have h := init_fold_multSum (lines.drop 1) [] (by simp [keysOf])
    simpa [init_reads, multSum] using h
  · intro k m loci hmem hbad hne
    exact process_none loci _ ⟨(k, m), hmem, hbad⟩ hne

/-- C10: a stored read whose parsed length is zero or negative denotes an
empty interval — it contains no position — and removing it from the reads
dict (whatever its multiplicity) never changes what `process` produces. -/
theorem claim_C10_empty_interval (k : Str) (s l : Int)
    (hk : parseKey k = some (s, l)) (hl : l ≤ 0) :
    (∀ p : Int, ¬(s ≤ p ∧ p < s + l))
    ∧ ∀ (m : Nat) (loci : List Locus) (r₁ r₂ : Reads),
        process loci (r₁ ++ (k, m) :: r₂) = process loci (r₁ ++ r₂) := by
  have hnc : ∀ p : Int, ¬(s ≤ p ∧ p < s + l) := by
    intro p hp
    omega
  refine ⟨hnc, ?_⟩
  intro m loci r₁ r₂
  by_cases hall : ∀ kv ∈ r₁ ++ r₂, (parseKey kv.1).isSome
  · have hall₂ : ∀ kv ∈ r₁ ++ (k, m) :: r₂, (parseKey kv.1).isSome := by
      intro kv hkv
      rcases List.mem_append.mp hkv with hm | hm
      · exact hall kv (List.mem_append.mpr (Or.inl hm))
      · rcases List.mem_cons.mp hm with he | he
        · subst he
          simp [hk]
        · exact hall kv (List.mem_append.mpr (Or.inr he))
    rw [process_some _ _ hall, process_some _ _ hall₂]
    have hcov : ∀ p : Int,
        coverageSpec p (r₁ ++ (k, m) :: r₂) = coverageSpec p (r₁ ++ r₂) := by
      intro p
      rw [coverageSpec_append, coverageSpec_append, coverageSpec_cons]
      have hfalse : keyCovers k p = false := by
        simp [keyCovers, hk]
        omega
      rw [hfalse]
      simp
    simp [hcov]
  · have hex := not_allParse_exists _ hall
    have hex₂ : ∃ kv ∈ r₁ ++ (k, m) :: r₂, parseKey kv.1 = none := by
      obtain ⟨kv, hm, hb⟩ := hex
      rcases List.mem_append.mp hm with h1 | h1
      · exact ⟨kv, List.mem_append.mpr (Or.inl h1), hb⟩
      · exact ⟨kv, List.mem_append.mpr (Or.inr (List.mem_cons_of_mem _ h1)),
          hb⟩
    cases loci with
    | nil => simp [process, processState]
    | cons L rest =>
      rw [process_none _ _ hex (by simp), process_none _ _ hex₂ (by simp)]

/-! ### Concrete witnesses -/

/-- C1 witness: the spec's worked scenario, annotated via the theorem. -/
theorem claim_C1_coverage_is_interval_sum_witness :
    process demoLoci demoReads
      = some (demoLoci.map
          (fun L => ⟨L.position, coverageSpec L.position demoReads⟩))
    ∧ (demoLoci.map
        (fun L => (⟨L.position, coverageSpec L.position demoReads⟩ : Locus)))
      = [⟨100, 2⟩, ⟨150, 3⟩, ⟨200, 0⟩] :=
  ⟨(claim_C1_coverage_is_interval_sum demoLoci demoReads (by decide)
      (by decide)).1,
   by decide⟩

/-- C2 witness: the duplicated record `100,60` is stored with
multiplicity 2. -/
theorem claim_C2_dedup_multiplicities_witness :
    lookupCount (init_reads demoReadLines) demoKey1
      = occCount ((demoReadLines.drop 1).map rstripNl) demoKey1
    ∧ occCount ((demoReadLines.drop 1).map rstripNl) demoKey1 = 2 :=
  ⟨(claim_C2_dedup_multiplicities demoReadLines).1 demoKey1, by decide⟩

/-- C3 witness: the read `100,50` covers positions 100 and 149 but not
position 150. -/
theorem claim_C3_half_open_membership_witness :
    parseKey demoBoundaryKey = some (100, 50)
    ∧ process [⟨100, 0⟩] [(demoBoundaryKey, 1)] = some [⟨100, 1⟩]
    ∧ process [⟨149, 0⟩] [(demoBoundaryKey, 1)] = some [⟨149, 1⟩]
    ∧ process [⟨150, 0⟩] [(demoBoundaryKey, 1)] = some [⟨150, 0⟩] := by
  refine ⟨by decide, ?_, ?_, ?_⟩
  · have h := claim_C3_half_open_membership 100 100 50 1 0 demoBoundaryKey
      (by decide)
    norm_num at h
    exact h
  · have h := claim_C3_half_open_membership 149 100 50 1 0 demoBoundaryKey
      (by decide)
    norm_num at h
    exact h
  · have h := claim_C3_half_open_membership 150 100 50 1 0 demoBoundaryKey
      (by decide)
    norm_num at h
    exact h

/-- C4 witness: three loci rows load as three loci, the middle input row
`150` parses to the middle locus, and serialization yields four output
rows (one header plus three data rows). -/
theorem claim_C4_row_cardinality_order_witness :
    init_poscov demoLociLines = some demoLoci
    ∧ demoLoci.length = (demoLociLines.drop 1).length
    ∧ parseLocusRow ((demoLociLines.drop 1).get ⟨1, by decide⟩)
        = some (demoLoci.get ⟨1, by decide⟩)
    ∧ (output_poscov demoLoci).length = 1 + demoLoci.length :=
  ⟨by decide,
   (claim_C4_row_cardinality_order demoLociLines demoLoci (by decide)).1,
   (claim_C4_row_cardinality_order demoLociLines demoLoci (by decide)).2.1 1
     (by decide) (by decide),
   (claim_C4_row_cardinality_order demoLociLines demoLoci (by decide)).2.2.1⟩

/-- C5 witness: an unparseable loci row aborts the whole run. -/
theorem claim_C5_parse_error_aborts_witness :
    parseLocusRow ['a', 'b', 'c', '\n'] = none
    ∧ runPipeline [['p', '\n'], ['a', 'b', 'c', '\n']] [['h', '\n']]
        = none :=
  ⟨by decide,
   claim_C5_parse_error_aborts _ _
     (Or.inl ⟨['a', 'b', 'c', '\n'], by decide⟩)⟩

/-- C7 witness: permuting the reads dict or the loci list leaves each
locus's coverage unchanged. -/
theorem claim_C7_order_independence_witness :
    process demoLoci demoReads = process demoLoci demoReadsRev
    ∧ process demoLoci demoReads = some [⟨100, 2⟩, ⟨150, 3⟩, ⟨200, 0⟩]
    ∧ process demoLociRev demoReads = some [⟨200, 0⟩, ⟨150, 3⟩, ⟨100, 2⟩]
    ∧ List.Perm ([⟨100, 2⟩, ⟨150, 3⟩, ⟨200, 0⟩] : List Locus)
        [⟨200, 0⟩, ⟨150, 3⟩, ⟨100, 2⟩] := by
  have h := claim_C7_order_independence demoLoci demoLociRev demoReads
    demoReadsRev (by decide) (by decide)
  exact ⟨h.1, by decide, by decide, h.2 _ _ (by decide) (by decide)⟩

/-- C8 witness: annotation of the worked scenario keeps the positions and
returns the reads dict untouched. -/
theorem claim_C8_frame_witness :
    processState demoLoci demoReads
      = some ([⟨100, 2⟩, ⟨150, 3⟩, ⟨200, 0⟩], demoReads)
    ∧ ([⟨100, 2⟩, ⟨150, 3⟩, ⟨200, 0⟩] : List Locus).map Locus.position
        = demoLoci.map Locus.position :=
  ⟨by decide,
   (claim_C8_frame demoLoci demoReads [⟨100, 2⟩, ⟨150, 3⟩, ⟨200, 0⟩]
     demoReads (by decide)).1⟩

/-- C9 witness: four records load without error into total multiplicity 3;
an unparseable stored key fails once a locus exists. -/
theorem claim_C9_reads_load_total_witness :
    multSum (init_reads demoReadLines) = (demoReadLines.drop 1).length
    ∧ process [⟨5, 0⟩] (init_reads badReadLines) = none :=
  ⟨(claim_C9_reads_load_total demoReadLines).1,
   (claim_C9_reads_load_total badReadLines).2 ['x'] 1 [⟨5, 0⟩] (by decide)
     (by decide) (by simp)⟩

/-- C10 witness: the zero-length read `100,0` contributes nothing even at
its own start position, whatever its multiplicity. -/
theorem claim_C10_empty_interval_witness :
    parseKey demoZeroKey = some (100, 0)
    ∧ process [⟨100, 0⟩] ([] ++ (demoZeroKey, 7) :: [(demoKey1, 2)])
        = process [⟨100, 0⟩] ([] ++ [(demoKey1, 2)]) :=
  ⟨by decide,
   (claim_C10_empty_interval demoZeroKey 100 0 (by decide) (by decide)).2 7
     [⟨100, 0⟩] [] [(demoKey1, 2)]⟩

end LociPy
